import Mathlib

/-!
Shallow embedding of the P2FA forced-alignment pipeline of `pyfoal`
(`pyfoal/baselines/p2fa.py`), together with theorems checking the
specified behaviour of its components.

Modelling conventions:
* Python floats are modelled as exact rationals (`ℚ`);
* Python strings are modelled as `List Char`, Python lists as `List`;
* Python exceptions are modelled with `Except`;
* external subprocesses are modelled by an abstract runner function
  mapping an argument vector to an exit code.
-/

namespace P2FA

/-- `SAMPLE_RATE = 11025`: the sampling rate that P2FA uses (p2fa.py, line 23). -/
def SAMPLE_RATE : ℕ := 11025

/-! ### Alignment correction — `Aligner.correct_alignment` (p2fa.py, lines 127-145)

The Python body, acting on the list of raw phoneme durations:

    durations[0] += .0125
    durations = [d * 11000. / 11025. for d in durations]
    durations[-1] = duration - sum(durations[:-1])

`durations[0] += .0125` raises `IndexError` on an empty list; there is no
other error path.  `durations[-1] = x` replaces the last element, so on a
nonempty list the result is `durations.dropLast ++ [x]`, and
`sum(durations[:-1])` is `durations.dropLast.sum`. -/

/-- The duration-correction core of `Aligner.correct_alignment`, as a function
from the raw per-phoneme durations and the true audio duration to the
corrected durations (`Except` carries the `IndexError` raised on an empty
list by `durations[0] += .0125`). -/
def correct_durations (raw : List ℚ) (duration : ℚ) : Except String (List ℚ) :=
  match raw with
  | [] => Except.error "IndexError: list index out of range"
  | d0 :: rest =>
    let durations := ((d0 + 0.0125) :: rest).map (fun d => d * 11000 / 11025)
    Except.ok (durations.dropLast ++ [duration - durations.dropLast.sum])

/-- Modelled from the spec: `pypar.Alignment.update` (the `pypar` package is
external to `src/`) recomputes segment start/end timestamps "by cumulative
sum from corrected durations" (spec §4.4, step 5).  Each duration `d`
starting from time `t` yields the segment `(t, t + d)`. -/
def segments_of_durations : List ℚ → ℚ → List (ℚ × ℚ)
  | [], _ => []
  | d :: ds, t => (t, t + d) :: segments_of_durations ds (t + d)

/-- `Aligner.correct_alignment`: correct the raw durations, then rebuild the
segment (start, end) timestamps starting from time 0. -/
def correct_alignment (raw : List ℚ) (duration : ℚ) :
    Except String (List (ℚ × ℚ)) :=
  (correct_durations raw duration).map (fun ds => segments_of_durations ds 0)

/-- The mapped difference `end - start` over `segments_of_durations` sums to
the sum of the input durations. -/
theorem segments_of_durations_sum (ds : List ℚ) (t : ℚ) :
    ((segments_of_durations ds t).map (fun s => s.2 - s.1)).sum = ds.sum := by
  induction ds generalizing t with
  | nil => simp [segments_of_durations]
  | cons d ds ih => simp [segments_of_durations, ih]

/-- Segments generated by cumulative sum are contiguous: each segment ends
where the next begins. -/
theorem segments_of_durations_chain (ds : List ℚ) (t : ℚ) :
    List.Chain' (fun a b : ℚ × ℚ => a.2 = b.1) (segments_of_durations ds t) := by
  induction ds generalizing t with
  | nil => exact List.chain'_nil
  | cons d ds ih =>
    cases ds with
    | nil => simp [segments_of_durations]
    | cons e es =>
      exact List.Chain'.cons (by simp [segments_of_durations]) (ih (t + d))

/-- C1: on three raw durations `[d0, d1, d2]` and true duration `D`,
`correct_alignment` produces corrected durations exactly
`[(d0+0.0125)*k, d1*k, D - (d0+0.0125)*k - d1*k]` with `k = 11000/11025`:
the first duration receives the additive onset offset and then the rate
correction, the middle duration only the rate correction, and the last
duration is replaced by the reconciliation remainder. -/
theorem correct_durations_three (d0 d1 d2 D : ℚ) :
    correct_durations [d0, d1, d2] D =
      Except.ok [(d0 + 0.0125) * (11000 / 11025), d1 * (11000 / 11025),
        D - (d0 + 0.0125) * (11000 / 11025) - d1 * (11000 / 11025)] := by
  simp only [correct_durations, List.map_cons, List.map_nil, List.dropLast_cons₂,
    List.dropLast_single, List.sum_cons, List.sum_nil, List.cons_append,
    List.nil_append, Except.ok.injEq, List.cons.injEq, and_true]
  refine ⟨by ring, by ring, by ring⟩

/-- C2: on a nonempty raw duration list and true duration `D > 0`, the
corrected alignment's segment durations sum exactly to `D` (hence within
the spec's `1e-6` tolerance) and consecutive segments are contiguous:
`segment[i].end = segment[i+1].start`. -/
theorem correct_alignment_coverage (raw : List ℚ) (D : ℚ) (segs : List (ℚ × ℚ))
    (hraw : raw ≠ []) (_hD : 0 < D)
    (h : correct_alignment raw D = Except.ok segs) :
    ((segs.map (fun s => s.2 - s.1)).sum = D) ∧
      List.Chain' (fun a b : ℚ × ℚ => a.2 = b.1) segs := by
  match raw, hraw with
  | d0 :: rest, _ =>
    simp only [correct_alignment, correct_durations, Except.map, Except.ok.injEq] at h
    subst h
    constructor
    · rw [segments_of_durations_sum]
      simp
    · exact segments_of_durations_chain _ 0

/-- Witness for C2 at raw durations `[1]` and true duration `2`. -/
theorem correct_alignment_coverage_witness :
    (([((0 : ℚ), (2 : ℚ))].map (fun s => s.2 - s.1)).sum = 2) ∧
      List.Chain' (fun a b : ℚ × ℚ => a.2 = b.1) [((0 : ℚ), (2 : ℚ))] :=
  correct_alignment_coverage [1] 2 [(0, 2)] (by decide) (by norm_num)
    (by simp [correct_alignment, correct_durations, Except.map, segments_of_durations])

/-- C7 counterexample: on raw durations `[1, 1, 1]` with true duration `1`,
`correct_durations` returns successfully an alignment whose reconciled final
duration `-889/882` is negative — no hard failure is raised and nothing is
clamped. -/
theorem correct_durations_returns_negative :
    correct_durations [1, 1, 1] 1 =
        Except.ok [99 / 98, 440 / 441, -889 / 882] ∧
      ((-889 / 882 : ℚ) < 0) := by
  constructor
  · simp only [correct_durations, List.map_cons, List.map_nil, List.dropLast_cons₂,
      List.dropLast_single, List.sum_cons, List.sum_nil, List.cons_append,
      List.nil_append, Except.ok.injEq, List.cons.injEq, and_true]
    norm_num
  · norm_num

/-- C7 amended: `correct_durations` fails hard (with an `IndexError`) exactly
when the raw list is empty; on any nonempty raw list it returns successfully,
with the final duration equal to the reconciliation remainder
`duration - sum(durations[:-1])` as-is — no negativity check and no clamping
is performed. -/
theorem correct_durations_error_policy :
    (∀ D : ℚ, correct_durations [] D =
        Except.error "IndexError: list index out of range") ∧
      (∀ (raw : List ℚ) (D : ℚ), raw ≠ [] →
        ∃ ds : List ℚ, correct_durations raw D = Except.ok ds ∧
          ds.getLast? = some (D - ds.dropLast.sum)) := by
  constructor
  · intro D
    rfl
  · intro raw D hraw
    match raw, hraw with
    | d0 :: rest, _ =>
      refine ⟨_, rfl, ?_⟩
      rw [List.dropLast_concat, List.getLast?_concat]

/-- Witness for C7 amended at raw durations `[1, 1, 1]` and true duration `1`. -/
theorem correct_durations_error_policy_witness :
    ∃ ds : List ℚ, correct_durations [1, 1, 1] 1 = Except.ok ds ∧
      ds.getLast? = some (1 - ds.dropLast.sum) :=
  correct_durations_error_policy.2 [1, 1, 1] 1 (by decide)

/-! ### Text normalisation — `Aligner.lint` (p2fa.py, lines 166-178)

The Python body:

    text = text.replace('\n', ' ')
    text = text.replace('\t', ' ')
    while '  ' in text:
        text = text.replace('  ', ' ')
    text = g2p_en.expand.normalize_numbers(text)
    return text.translate(self.punctuation_table)

with `self.punctuation_table = str.maketrans('-', ' ', punctuation)` where
`punctuation` is `string.punctuation + '”“—'` minus `'-'` (lines 91-92). -/

/-- Python `text.replace(old, new)` for single-character patterns. -/
def pyReplaceChar (old new : Char) (l : List Char) : List Char :=
  l.map (fun c => if c = old then new else c)

/-- One pass of Python `text.replace('  ', ' ')`: replace non-overlapping
occurrences of two consecutive spaces by one space, left to right. -/
def replaceDoubleSpace : List Char → List Char
  | [] => []
  | [c] => [c]
  | c1 :: c2 :: rest =>
    if c1 = ' ' ∧ c2 = ' ' then ' ' :: replaceDoubleSpace rest
    else c1 :: replaceDoubleSpace (c2 :: rest)

/-- Python `'  ' in text`. -/
def hasDoubleSpace : List Char → Bool
  | c1 :: c2 :: rest => (c1 == ' ' && c2 == ' ') || hasDoubleSpace (c2 :: rest)
  | _ => false

/-- The `while '  ' in text: text = text.replace('  ', ' ')` loop, with an
explicit iteration bound.  Each loop iteration strictly shrinks the text
(`replaceDoubleSpace_length_lt` below), so `l.length` iterations always
reach the fixed point. -/
def collapseSpaces : ℕ → List Char → List Char
  | 0, l => l
  | n + 1, l =>
    if hasDoubleSpace l then collapseSpaces n (replaceDoubleSpace l) else l

/-- The whitespace-collapsing loop, run on sufficient fuel. -/
def collapseAll (l : List Char) : List Char := collapseSpaces l.length l

theorem replaceDoubleSpace_length_le :
    ∀ l : List Char, (replaceDoubleSpace l).length ≤ l.length
  | [] => le_refl _
  | [_] => le_refl _
  | c1 :: c2 :: rest => by
    simp only [replaceDoubleSpace]
    by_cases h : c1 = ' ' ∧ c2 = ' '
    · simp only [if_pos h, List.length_cons]
      have := replaceDoubleSpace_length_le rest
      omega
    · simp only [if_neg h, List.length_cons]
      have := replaceDoubleSpace_length_le (c2 :: rest)
      simp only [List.length_cons] at this
      omega

theorem replaceDoubleSpace_length_lt :
    ∀ l : List Char, hasDoubleSpace l = true →
      (replaceDoubleSpace l).length < l.length
  | [], h => by simp [hasDoubleSpace] at h
  | [c], h => by simp [hasDoubleSpace] at h
  | c1 :: c2 :: rest, h => by
    simp only [hasDoubleSpace, Bool.or_eq_true, Bool.and_eq_true, beq_iff_eq] at h
    simp only [replaceDoubleSpace]
    by_cases hc : c1 = ' ' ∧ c2 = ' '
    · simp only [if_pos hc, List.length_cons]
      have := replaceDoubleSpace_length_le rest
      omega
    · simp only [if_neg hc, List.length_cons]
      have hrec : hasDoubleSpace (c2 :: rest) = true := by
        rcases h with hcc | h
        · exact absurd hcc hc
        · exact h
      have := replaceDoubleSpace_length_lt (c2 :: rest) hrec
      simp only [List.length_cons] at this
      omega

/-- The fuel `l.length` is always sufficient: the loop reaches its fixed
point, a text with no two consecutive spaces. -/
theorem hasDoubleSpace_collapseSpaces :
    ∀ (n : ℕ) (l : List Char), l.length ≤ n →
      hasDoubleSpace (collapseSpaces n l) = false
  | 0, l, h => by
    have : l = [] := List.length_eq_zero.mp (Nat.le_zero.mp h)
    subst this
    rfl
  | n + 1, l, h => by
    simp only [collapseSpaces]
    by_cases hd : hasDoubleSpace l = true
    · simp only [if_pos hd]
      have hlt := replaceDoubleSpace_length_lt l hd
      exact hasDoubleSpace_collapseSpaces n (replaceDoubleSpace l) (by omega)
    · simp only [if_neg hd]
      exact Bool.not_eq_true _ |>.mp hd

theorem mem_replaceDoubleSpace :
    ∀ {c : Char} (l : List Char), c ∈ replaceDoubleSpace l → c ∈ l
  | _, [], h => h
  | _, [_], h => h
  | c, c1 :: c2 :: rest, h => by
    simp only [replaceDoubleSpace] at h
    by_cases hc : c1 = ' ' ∧ c2 = ' '
    · rw [if_pos hc] at h
      rcases List.mem_cons.mp h with rfl | h
      · exact hc.1 ▸ List.mem_cons_self _ _
      · exact List.mem_cons_of_mem _ (List.mem_cons_of_mem _
          (mem_replaceDoubleSpace rest h))
    · rw [if_neg hc] at h
      rcases List.mem_cons.mp h with rfl | h
      · exact List.mem_cons_self _ _
      · exact List.mem_cons_of_mem _ (mem_replaceDoubleSpace (c2 :: rest) h)

theorem mem_collapseSpaces :
    ∀ (n : ℕ) {c : Char} (l : List Char), c ∈ collapseSpaces n l → c ∈ l
  | 0, _, _, h => h
  | n + 1, c, l, h => by
    by_cases hd : hasDoubleSpace l = true
    · simp only [collapseSpaces, if_pos hd] at h
      exact mem_replaceDoubleSpace l (mem_collapseSpaces n (replaceDoubleSpace l) h)
    · simpa only [collapseSpaces, if_neg hd] using h

theorem pyReplaceChar_of_not_mem {old : Char} (new : Char) :
    ∀ (l : List Char), old ∉ l → pyReplaceChar old new l = l
  | [], _ => rfl
  | c :: rest, h => by
    have hc : ¬c = old := fun e => h (e ▸ List.mem_cons_self c rest)
    simp only [pyReplaceChar, List.map_cons, if_neg hc]
    have := pyReplaceChar_of_not_mem new rest (fun hm => h (List.mem_cons_of_mem _ hm))
    simpa only [pyReplaceChar] using congrArg (c :: ·) this

theorem mem_pyReplaceChar {old new c : Char} {l : List Char}
    (h : c ∈ pyReplaceChar old new l) : c = new ∨ (c ∈ l ∧ c ≠ old) := by
  simp only [pyReplaceChar, List.mem_map] at h
  obtain ⟨a, ha, hc⟩ := h
  by_cases he : a = old
  · rw [if_pos he] at hc
    exact Or.inl hc.symm
  · rw [if_neg he] at hc
    exact Or.inr ⟨hc ▸ ha, hc ▸ he⟩

/-- The characters deleted by the `Aligner` translation table
(p2fa.py, lines 91-92): `string.punctuation + '”“—'` with `'-'` excluded.
`string.punctuation` is the ASCII punctuation block, i.e. character codes
33-47, 58-64, 91-96 and 123-126; the three extra characters have codes
8221 (”), 8220 (“) and 8212 (—); code 45 is `'-'`. -/
def deletedByTable (c : Char) : Bool :=
  (decide (33 ≤ c.toNat) && decide (c.toNat ≤ 47) && c.toNat != 45) ||
    (decide (58 ≤ c.toNat) && decide (c.toNat ≤ 64)) ||
    (decide (91 ≤ c.toNat) && decide (c.toNat ≤ 96)) ||
    (decide (123 ≤ c.toNat) && decide (c.toNat ≤ 126)) ||
    c.toNat == 8221 || c.toNat == 8220 || c.toNat == 8212

/-- Python `text.translate(str.maketrans('-', ' ', deleted))`, per character:
`'-'` becomes a space, deleted characters are removed, everything else is
kept unchanged. -/
def translateChar (c : Char) : Option Char :=
  if c = '-' then some ' '
  else if deletedByTable c then none
  else some c

/-- Python `text.translate(self.punctuation_table)` (p2fa.py, line 178). -/
def pyTranslate (l : List Char) : List Char := l.filterMap translateChar

/-- `Aligner.lint` (p2fa.py, lines 166-178), parametric in the external
numeral expander `g2p_en.expand.normalize_numbers` (the `g2p_en` package is
an external collaborator, not part of this repository).  Spec §4.1 gives
the expander's interface: it "expands numeric literals into their word
form" — so it leaves digit-free text unchanged (nothing to expand), its
output contains no numeral, and any character it introduces is word-form
(a letter, a space, or a hyphen as in "twenty-one").  Theorems below assume
exactly these interface properties of the parameter. -/
def lint (normalize_numbers : List Char → List Char) (text : List Char) :
    List Char :=
  pyTranslate (normalize_numbers (collapseAll
    (pyReplaceChar '\t' ' ' (pyReplaceChar '\n' ' ' text))))

/-- A concrete collaborator instantiating the numeral-expander interface in
closed theorems: it removes digits, so digit-free text is left unchanged
(there, it agrees exactly with the real expander, since both are the
identity when there is no numeral to expand), its output is digit-free,
and it introduces no character at all. -/
def dropDigits (l : List Char) : List Char := l.filter (fun c => !c.isDigit)

theorem mem_pyTranslate {c : Char} {l : List Char} (h : c ∈ pyTranslate l) :
    (c = ' ' ∨ c ∈ l) ∧ deletedByTable c = false ∧ c ≠ '-' := by
  simp only [pyTranslate, List.mem_filterMap] at h
  obtain ⟨a, ha, hc⟩ := h
  unfold translateChar at hc
  by_cases h1 : a = '-'
  · rw [if_pos h1] at hc
    cases hc
    exact ⟨Or.inl rfl, by decide, by decide⟩
  · rw [if_neg h1] at hc
    by_cases h2 : deletedByTable a = true
    · rw [if_pos h2] at hc
      cases hc
    · rw [if_neg h2] at hc
      cases hc
      exact ⟨Or.inr ha, Bool.not_eq_true _ |>.mp h2, h1⟩

theorem pyTranslate_of_clean :
    ∀ (l : List Char), (∀ c ∈ l, deletedByTable c = false ∧ c ≠ '-') →
      pyTranslate l = l
  | [], _ => rfl
  | c :: rest, h => by
    have hc := h c (List.mem_cons_self c rest)
    have hrest := pyTranslate_of_clean rest
      (fun d hd => h d (List.mem_cons_of_mem _ hd))
    simp only [pyTranslate, List.filterMap_cons, translateChar, if_neg hc.2,
      hc.1, Bool.false_eq_true, if_false]
    simpa only [pyTranslate] using congrArg (c :: ·) hrest

/-- C3 counterexample: `lint` is not idempotent.  The text `"a- b"` is
digit-free, so every numeral expander satisfying spec §4.1 acts on it (and
on everything `lint` derives from it) as the identity — as the concrete
`dropDigits` does.  The hyphen is replaced by a space only after whitespace
collapsing, leaving the double space `"a  b"`; a second application
collapses it to `"a b"`. -/
theorem lint_not_idempotent :
    lint dropDigits "a- b".data = "a  b".data ∧
      lint dropDigits (lint dropDigits "a- b".data) = "a b".data ∧
      lint dropDigits (lint dropDigits "a- b".data) ≠
        lint dropDigits "a- b".data := by decide

/-- `lint` on a text that is already fully linted — no newline, tab, digit,
deleted character or hyphen — reduces to whitespace collapsing, for any
numeral expander that fixes digit-free text. -/
theorem lint_of_linted (normalize_numbers : List Char → List Char)
    (hfix : ∀ l : List Char, (∀ c ∈ l, c.isDigit = false) →
      normalize_numbers l = l)
    (u : List Char) (hnl : '\n' ∉ u) (htab : '\t' ∉ u)
    (hdigit : ∀ c ∈ u, c.isDigit = false)
    (hclean : ∀ c ∈ u, deletedByTable c = false ∧ c ≠ '-') :
    lint normalize_numbers u = collapseAll u := by
  rw [lint, pyReplaceChar_of_not_mem ' ' u hnl,
    pyReplaceChar_of_not_mem ' ' u htab,
    hfix (collapseAll u)
      (fun c hc => hdigit c (mem_collapseSpaces u.length u hc)),
    pyTranslate_of_clean (collapseAll u)
      (fun c hc => hclean c (mem_collapseSpaces u.length u hc))]

/-- C3 amended: for every numeral expander satisfying the interface spec
§4.1 gives the collaborator — digit-free text is left unchanged, the output
is digit-free, and only word-form characters (letters, spaces, hyphens) are
introduced — a second application of `lint` is exactly whitespace collapsing
of the first application's result: `lint nn (lint nn t) = collapseAll
(lint nn t)`.  `lint` is therefore idempotent exactly on those inputs whose
linted form contains no double space, and not in general: stripping
punctuation (and mapping hyphens to spaces) after the collapsing step can
create new double spaces. -/
theorem lint_lint (normalize_numbers : List Char → List Char)
    (hfix : ∀ l : List Char, (∀ c ∈ l, c.isDigit = false) →
      normalize_numbers l = l)
    (hdigits : ∀ l : List Char, ∀ c ∈ normalize_numbers l,
      c.isDigit = false)
    (hintro : ∀ l : List Char, ∀ c ∈ normalize_numbers l, c ∉ l →
      (c.isAlpha = true ∨ c = ' ' ∨ c = '-'))
    (text : List Char) :
    lint normalize_numbers (lint normalize_numbers text) =
      collapseAll (lint normalize_numbers text) := by
  have hXnl : '\n' ∉ pyReplaceChar '\t' ' ' (pyReplaceChar '\n' ' ' text) := by
    intro h
    rcases mem_pyReplaceChar h with h | h
    · exact absurd h (by decide)
    · rcases mem_pyReplaceChar h.1 with h2 | h2
      · exact absurd h2 (by decide)
      · exact h2.2 rfl
  have hXtab : '\t' ∉ pyReplaceChar '\t' ' ' (pyReplaceChar '\n' ' ' text) := by
    intro h
    rcases mem_pyReplaceChar h with h | h
    · exact absurd h (by decide)
    · exact h.2 rfl
  apply lint_of_linted normalize_numbers hfix
  · intro hmem
    rcases (mem_pyTranslate hmem).1 with h | h
    · exact absurd h (by decide)
    · by_cases hin : '\n' ∈ collapseAll (pyReplaceChar '\t' ' '
          (pyReplaceChar '\n' ' ' text))
      · exact hXnl (mem_collapseSpaces _ _ hin)
      · rcases hintro _ '\n' h hin with h2 | h2 | h2 <;>
          exact absurd h2 (by decide)
  · intro hmem
    rcases (mem_pyTranslate hmem).1 with h | h
    · exact absurd h (by decide)
    · by_cases hin : '\t' ∈ collapseAll (pyReplaceChar '\t' ' '
          (pyReplaceChar '\n' ' ' text))
      · exact hXtab (mem_collapseSpaces _ _ hin)
      · rcases hintro _ '\t' h hin with h2 | h2 | h2 <;>
          exact absurd h2 (by decide)
  · intro c hc
    rcases (mem_pyTranslate hc).1 with h | h
    · subst h
      decide
    · exact hdigits _ c h
  · intro c hc
    exact (mem_pyTranslate hc).2

/-- Witness for C3 amended: the three interface hypotheses hold of the
concrete digit-eliminating expander `dropDigits`, instantiated at the text
`"a- b"`. -/
theorem lint_lint_witness :
    lint dropDigits (lint dropDigits "a- b".data) =
      collapseAll (lint dropDigits "a- b".data) :=
  lint_lint dropDigits
    (fun l h => List.filter_eq_self.mpr (fun c hc => by simp [h c hc]))
    (fun l c hc => by
      have hm := List.mem_filter.mp hc
      simpa using hm.2)
    (fun l c hc hn => absurd (List.mem_filter.mp hc).1 hn)
    "a- b".data

/-! ### Resampling in `align` (p2fa.py, lines 31-44) -/

/-- The audio that `align` hands to the aligner — and that `Aligner.format`
then writes to the temporary workspace wav file.  The source executes

    if sample_rate != pyfoal.p2fa.SAMPLE_RATE:
        resampy.resample(audio, sample_rate, pyfoal.p2fa.SAMPLE_RATE)

as a bare expression statement: the resampled audio returned by
`resampy.resample` (an external collaborator, here a parameter `resample`)
is discarded, and the original `audio` flows on unchanged. -/
def align_audio (resample : List ℚ → ℕ → ℕ → List ℚ) (audio : List ℚ)
    (sample_rate : ℕ) : List ℚ :=
  if sample_rate ≠ SAMPLE_RATE then
    let _resampled := resample audio sample_rate SAMPLE_RATE
    audio
  else audio

/-- Keep every second sample: integer-factor decimation, the simplest
correct resampler for an exact 2:1 rate change such as 22050 → 11025. -/
def everyOther : List ℚ → List ℚ
  | [] => []
  | [a] => [a]
  | a :: _ :: rest => a :: everyOther rest

/-- A concrete resampler witnessing that resampling changes the audio. -/
def decimateByTwo (audio : List ℚ) (_srFrom _srTo : ℕ) : List ℚ :=
  everyOther audio

/-- C4 (code bug): calling `align` with `sample_rate = 22050 ≠ 11025`, the
audio handed to the decoder workspace is the original, unresampled audio —
`align` discards `resampy.resample`'s return value — while the resampled
audio differs from it. -/
theorem align_audio_not_resampled :
    align_audio decimateByTwo [1, 2, 3, 4] 22050 = [1, 2, 3, 4] ∧
      decimateByTwo [1, 2, 3, 4] 22050 SAMPLE_RATE = [1, 3] ∧
      ([1, 3] : List ℚ) ≠ [1, 2, 3, 4] :=
  ⟨rfl, rfl, by decide⟩

/-! ### Decoder invocation — `Aligner.viterbi` (p2fa.py, lines 198-211) -/

/-- The argument vector `Aligner.viterbi` passes to `HVite`
(p2fa.py, lines 200-209). -/
def hvite_args (words dictionary script output macros hmmdefs monophones :
    String) : List String :=
  ["HVite", "-T", "1", "-a", "-m", "-I", words, "-H", macros, "-H", hmmdefs,
   "-S", script, "-i", output, "-p", "0.", "-s", "5.", dictionary, monophones]

/-- `Aligner.viterbi` (p2fa.py, lines 198-211), with the external decoder
subprocess abstracted as a function `run` from the argument vector to the
subprocess's exit code.  The body runs

    subprocess.Popen(args, stdout=file).wait()

as a bare statement: `.wait()` blocks until the decoder terminates and
returns its exit code; that exit code is discarded, and the method returns
normally (`Except.ok ()`) — `Popen(...).wait()` raises no exception on a
nonzero exit code. -/
def viterbi (run : List String → ℤ)
    (words dictionary script output macros hmmdefs monophones : String) :
    Except String Unit :=
  let _exitCode :=
    run (hvite_args words dictionary script output macros hmmdefs monophones)
  Except.ok ()

/-- C5 counterexample: a decoder subprocess exiting with code 1 is reported
as success by `viterbi` — the nonzero exit code is not propagated to the
caller as a failure. -/
theorem viterbi_ignores_nonzero_exit :
    viterbi (fun _ => 1) "tmp.mlf" "dictionary" "test.scp" "alignment.mlf"
      "macros" "hmmdefs" "monophones" = Except.ok () := rfl

/-- C5 amended: `viterbi` blocks on the decoder subprocess via `.wait()`,
but discards the exit code `.wait()` returns: for every runner — hence for
every exit code, zero or nonzero — `viterbi` returns success, and no exit
code ever reaches the caller; decoder failure can surface only later, when
the missing or empty output file is parsed. -/
theorem viterbi_result_independent_of_exit_code (run : List String → ℤ)
    (words dictionary script output macros hmmdefs monophones : String) :
    viterbi run words dictionary script output macros hmmdefs monophones =
      Except.ok () := rfl

/-! ### Feature extraction — `Aligner.format` (p2fa.py, lines 147-164) -/

/-- An observable subprocess action: launching a process, or blocking on
its termination. -/
inductive ProcEvent : Type
  | spawn (args : List String)
  | wait (args : List String)
deriving DecidableEq

/-- Is the event a blocking wait? -/
def isWaitEvent : ProcEvent → Bool
  | ProcEvent.wait _ => true
  | _ => false

/-- `Aligner.format` (p2fa.py, lines 147-164) writes the wav, code and
script files, then launches `HCopy` with `subprocess.Popen(...)` — and
returns without `.wait()` and without reading any exit status.  Its
subprocess trace is a single spawn. -/
def format_events (hcopyConfig codeFile : String) : List ProcEvent :=
  [ProcEvent.spawn ["HCopy", "-T", "1", "-C", hcopyConfig, "-S", codeFile]]

/-- The outcome `Aligner.format` reports, as a function of the `HCopy`
subprocess's eventual exit code: the exit code is never inspected, so
`format` returns successfully for every exit code. -/
def format_result (_exitCode : ℤ) : Except String Unit := Except.ok ()

/-- `Aligner.viterbi`'s subprocess trace (p2fa.py, line 211): a spawn of
`HVite` immediately followed by a blocking wait on that same process. -/
def viterbi_events (args : List String) : List ProcEvent :=
  [ProcEvent.spawn args, ProcEvent.wait args]

/-- The subprocess trace of one `Aligner.__call__` (p2fa.py, lines 94-121):
the `format` trace, then the `viterbi` trace. -/
def aligner_call_events (hcopyConfig codeFile : String)
    (hviteArgVector : List String) : List ProcEvent :=
  format_events hcopyConfig codeFile ++ viterbi_events hviteArgVector

/-- C10: `format` spawns the `HCopy` feature-extraction subprocess and
returns without waiting for it or inspecting its exit status — its trace
contains no wait event and its outcome is success for every exit code, so a
preprocessing failure never raises; and the only wait in the whole pipeline
trace is the one on the decoder, so the decoder is spawned with no prior
synchronisation on `HCopy`'s completion. -/
theorem format_never_waits (hcopyConfig codeFile : String)
    (hviteArgVector : List String) (exitCode : ℤ) :
    (format_events hcopyConfig codeFile).filter isWaitEvent = [] ∧
      format_result exitCode = Except.ok () ∧
      (aligner_call_events hcopyConfig codeFile hviteArgVector).filter
          isWaitEvent = [ProcEvent.wait hviteArgVector] :=
  ⟨rfl, rfl, rfl⟩

/-! ### Batch driver — `from_files_to_files` (p2fa.py, lines 64-73) -/

/-- The first exception raised among a list of per-item outcomes. -/
def firstError {ε β : Type} : List (Except ε β) → Option ε
  | [] => none
  | Except.error e :: _ => some e
  | Except.ok _ :: rest => firstError rest

/-- `from_files_to_files` (p2fa.py, lines 64-73), the batch driver.  The
per-item pipeline `from_file_to_file` is a parameter `align_one`; an item's
written output file is its `Except.ok` value.  Modelled from the spec and
the documented behaviour of `multiprocessing.Pool.starmap` (external to
this repository): the pool runs every submitted item to completion —
successful items keep their written outputs (first component) — and then
`starmap` re-raises the exception of a failed item in the caller; the
driver itself returns `None` and propagates that exception (second
component). -/
def from_files_to_files {α β ε : Type} (align_one : α → Except ε β)
    (items : List α) : List (Option β) × Except ε Unit :=
  ((items.map align_one).map Except.toOption,
    match firstError (items.map align_one) with
    | some e => Except.error e
    | none => Except.ok ())

/-- A concrete per-item pipeline: item 1 fails with a decoder failure, all
other items succeed with output `10 * n`. -/
def demoAlignOne (n : ℕ) : Except String ℕ :=
  if n = 1 then Except.error "DecoderFailure" else Except.ok (10 * n)

/-- C6 counterexample: in a batch of three items whose middle item fails,
the two sibling items complete and their outputs are written, but
`from_files_to_files` does not return a per-item success/failure outcome —
the failing item's exception unwinds out of the call. -/
theorem from_files_to_files_unwinds :
    from_files_to_files demoAlignOne [0, 1, 2] =
      ([some 0, none, some 20], Except.error "DecoderFailure") := rfl

theorem firstError_eq_none_iff {ε β : Type} :
    ∀ rs : List (Except ε β),
      firstError rs = none ↔ ∀ r ∈ rs, r.toOption.isSome = true
  | [] => by simp [firstError]
  | Except.error e :: rest => by simp [firstError, Except.toOption]
  | Except.ok b :: rest => by
    simp [firstError, Except.toOption, firstError_eq_none_iff rest]

/-- C6 amended: the batch driver runs every item — an item's output is
written exactly when its own pipeline succeeds, independent of its siblings
— but it collects no per-item report: the call returns normally only when
every item succeeded, and otherwise a failing item's exception propagates
out of `from_files_to_files`, aborting the call (though not the sibling
items' already-written outputs). -/
theorem from_files_to_files_outcomes {α β ε : Type}
    (align_one : α → Except ε β) (items : List α) :
    (from_files_to_files align_one items).1 =
        (items.map align_one).map Except.toOption ∧
      ((from_files_to_files align_one items).2 = Except.ok () ↔
        ∀ i ∈ items, (align_one i).toOption.isSome = true) := by
  refine ⟨rfl, ?_⟩
  show (match firstError (items.map align_one) with
    | some e => Except.error e
    | none => (Except.ok () : Except ε Unit)) = Except.ok () ↔ _
  rcases h : firstError (items.map align_one) with _ | e
  · simp only [true_iff]
    intro i hi
    exact (firstError_eq_none_iff _).mp h _ (List.mem_map_of_mem _ hi)
  · simp only [reduceCtorEq, false_iff]
    intro hall
    have hnone : firstError (items.map align_one) = none :=
      (firstError_eq_none_iff _).mpr (by
        intro r hr
        obtain ⟨i, hi, rfl⟩ := List.mem_map.mp hr
        exact hall i hi)
    rw [hnone] at h
    cases h

/-! ### Pronunciation builder — `Aligner.split_phonemes` (p2fa.py, lines
180-196) and `Aligner.write_pronunciation` (p2fa.py, lines 213-229) -/

/-- `Aligner.split_phonemes` with its accumulated current word.  The body:

    for phoneme in phonemes:
        if phoneme == ' ' and word:
            words.append(word); word = []
        else:
            word.append(phoneme)
    if word: words.append(word)

Note the `and word` guard: a space marker arriving while `word` is empty
does not close a word — it is appended to `word` like an ordinary phoneme. -/
def split_phonemes_aux : List String → List String → List (List String)
  | word, [] => if word.isEmpty then [] else [word]
  | word, p :: rest =>
    if p = " " ∧ ¬word.isEmpty then word :: split_phonemes_aux [] rest
    else split_phonemes_aux (word ++ [p]) rest

/-- `Aligner.split_phonemes` (p2fa.py, lines 180-196). -/
def split_phonemes (phonemes : List String) : List (List String) :=
  split_phonemes_aux [] phonemes

/-- The whitespace Python `str.split()` splits on: space, tab, newline,
carriage return, vertical tab, form feed. -/
def pyIsSpace (c : Char) : Bool :=
  c == ' ' || c == '\t' || c == '\n' || c == '\r' ||
    c == Char.ofNat 11 || c == Char.ofNat 12

/-- Python `str.split()` with no separator: split on whitespace runs and
drop empty segments, with the accumulated current word. -/
def pySplit_aux : List Char → List Char → List (List Char)
  | word, [] => if word.isEmpty then [] else [word]
  | word, c :: rest =>
    if pyIsSpace c then
      if word.isEmpty then pySplit_aux [] rest
      else word :: pySplit_aux [] rest
    else pySplit_aux (word ++ [c]) rest

/-- Python `str.split()` with no separator. -/
def pySplit (l : List Char) : List (List Char) := pySplit_aux [] l

/-- Python `' '.join(ps)`, as characters. -/
def joinSpaces : List String → List Char
  | [] => []
  | [p] => p.data
  | p :: q :: rest => p.data ++ ' ' :: joinSpaces (q :: rest)

/-- One HTK dictionary line, `'{}  {}\n'.format(w, ' '.join(p))`
(p2fa.py, line 220). -/
def dictLine (w : List Char) (p : List String) : List Char :=
  w ++ "  ".data ++ joinSpaces p ++ "\n".data

/-- The silence entry `'sp  sp\n'` appended before sorting
(p2fa.py, line 221). -/
def silenceLine : List Char := "sp  sp\n".data

/-- Python string comparison: lexicographic by character code point. -/
def strLe : List Char → List Char → Bool
  | [], _ => true
  | _ :: _, [] => false
  | a :: l1, b :: l2 => if a = b then strLe l1 l2 else decide (a < b)

/-- Python `sorted(lines)` (p2fa.py, line 226): a stable sort of the lines
under string comparison. -/
def pySorted (lines : List (List Char)) : List (List Char) :=
  lines.mergeSort strLe

/-- The lines of the HTK dictionary file written by
`Aligner.write_pronunciation` (p2fa.py, lines 213-229), as a function of
the flat phoneme list returned by the external G2P collaborator
`g2p_en.G2p()(text)` (a parameter) and of the text:

    iterator = zip(text.upper().split(), self.split_phonemes(phonemes))
    lines = ['{}  {}\n'.format(w, ' '.join(p)) for w, p in iterator]
    lines.append('sp  sp\n')
    ... for line in sorted(lines): file.write(line)
-/
def pronunciation_lines (phonemes : List String) (text : List Char) :
    List (List Char) :=
  pySorted
    (((pySplit (text.map Char.toUpper)).zip (split_phonemes phonemes)).map
        (fun wp => dictLine wp.1 wp.2) ++ [silenceLine])

theorem strLe_total : ∀ x y : List Char, (strLe x y || strLe y x) = true
  | [], y => by cases y <;> simp [strLe]
  | _ :: _, [] => by simp [strLe]
  | a :: l1, b :: l2 => by
    by_cases hab : a = b
    · subst hab
      simp only [strLe, if_pos rfl]
      exact strLe_total l1 l2
    · have hba : ¬b = a := fun e => hab e.symm
      simp only [strLe, if_neg hab, if_neg hba, Bool.or_eq_true,
        decide_eq_true_eq]
      exact lt_or_gt_of_ne hab

theorem strLe_trans :
    ∀ x y z : List Char, strLe x y = true → strLe y z = true →
      strLe x z = true
  | [], _, _, _, _ => rfl
  | _ :: _, [], _, h1, _ => by simp [strLe] at h1
  | _ :: _, _ :: _, [], _, h2 => by simp [strLe] at h2
  | a :: l1, b :: l2, c :: l3, h1, h2 => by
    by_cases hab : a = b <;> by_cases hbc : b = c
    · subst hab; subst hbc
      simp only [strLe, if_pos rfl] at h1 h2 ⊢
      exact strLe_trans l1 l2 l3 h1 h2
    · subst hab
      simp only [strLe, if_neg hbc, decide_eq_true_eq] at h2
      simp only [strLe, if_neg hbc, decide_eq_true_eq]
      exact h2
    · subst hbc
      simp only [strLe, if_neg hab, decide_eq_true_eq] at h1
      simp only [strLe, if_neg hab, decide_eq_true_eq]
      exact h1
    · simp only [strLe, if_neg hab, decide_eq_true_eq] at h1
      simp only [strLe, if_neg hbc, decide_eq_true_eq] at h2
      have hac : a < c := lt_trans h1 h2
      simp only [strLe, if_neg (ne_of_lt hac), decide_eq_true_eq]
      exact hac

/-- Every word produced by Python `str.split()` is nonempty. -/
theorem pySplit_aux_ne_nil :
    ∀ (l : List Char) (word w : List Char), w ∈ pySplit_aux word l → w ≠ []
  | [], word, w, h => by
    by_cases he : word.isEmpty
    · simp [pySplit_aux, he] at h
    · simp only [pySplit_aux, he, Bool.false_eq_true, if_false,
        List.mem_singleton] at h
      subst h
      exact fun e => he (e ▸ rfl)
  | c :: rest, word, w, h => by
    simp only [pySplit_aux] at h
    by_cases hs : pyIsSpace c = true
    · rw [if_pos hs] at h
      by_cases he : word.isEmpty
      · rw [if_pos he] at h
        exact pySplit_aux_ne_nil rest [] w h
      · rw [if_neg he] at h
        rcases List.mem_cons.mp h with rfl | h
        · exact fun e => he (e ▸ rfl)
        · exact pySplit_aux_ne_nil rest [] w h
    · rw [if_neg hs] at h
      exact pySplit_aux_ne_nil rest (word ++ [c]) w h

/-- Every character of every word produced by Python `str.split()` comes
from the accumulator or from the input. -/
theorem pySplit_aux_chars :
    ∀ (l : List Char) (word w : List Char), w ∈ pySplit_aux word l →
      ∀ c ∈ w, c ∈ word ∨ c ∈ l
  | [], word, w, h, c, hc => by
    by_cases he : word.isEmpty
    · simp [pySplit_aux, he] at h
    · simp only [pySplit_aux, he, Bool.false_eq_true, if_false,
        List.mem_singleton] at h
      exact Or.inl (h ▸ hc)
  | a :: rest, word, w, h, c, hc => by
    simp only [pySplit_aux] at h
    by_cases hs : pyIsSpace a = true
    · rw [if_pos hs] at h
      by_cases he : word.isEmpty
      · rw [if_pos he] at h
        rcases pySplit_aux_chars rest [] w h c hc with h2 | h2
        · exact absurd h2 (List.not_mem_nil c)
        · exact Or.inr (List.mem_cons_of_mem _ h2)
      · rw [if_neg he] at h
        rcases List.mem_cons.mp h with rfl | h
        · exact Or.inl hc
        · rcases pySplit_aux_chars rest [] w h c hc with h2 | h2
          · exact absurd h2 (List.not_mem_nil c)
          · exact Or.inr (List.mem_cons_of_mem _ h2)
    · rw [if_neg hs] at h
      rcases pySplit_aux_chars rest (word ++ [a]) w h c hc with h2 | h2
      · rcases List.mem_append.mp h2 with h3 | h3
        · exact Or.inl h3
        · exact Or.inr (List.mem_singleton.mp h3 ▸ List.mem_cons_self a rest)
      · exact Or.inr (List.mem_cons_of_mem _ h2)

/-- Python `str.upper()` never produces a lowercase `'s'`: `'s'` itself is
uppercased to `'S'`, and no other character maps to `'s'`. -/
theorem toUpper_ne_s (c : Char) : Char.toUpper c ≠ 's' := by
  show (if c.toNat ≥ 97 ∧ c.toNat ≤ 122 then Char.ofNat (c.toNat - 32)
    else c) ≠ 's'
  by_cases h : c.toNat ≥ 97 ∧ c.toNat ≤ 122
  · rw [if_pos h]
    obtain ⟨h1, h2⟩ := h
    generalize hc : c.toNat = n at h1 h2
    interval_cases n <;> decide
  · rw [if_neg h]
    intro he
    subst he
    exact h (by decide)

/-- C9: for every G2P phoneme output and every input text, the dictionary
lines emitted by `write_pronunciation` are in non-decreasing lexicographic
order, and the silence entry `'sp  sp\n'` (appended once before sorting)
occurs exactly once. -/
theorem pronunciation_lines_sorted_unique (phonemes : List String)
    (text : List Char) :
    List.Pairwise (fun a b => strLe a b = true)
        (pronunciation_lines phonemes text) ∧
      (pronunciation_lines phonemes text).count silenceLine = 1 := by
  constructor
  · exact List.sorted_mergeSort strLe_trans strLe_total _
  · have key : ∀ X : List (List Char), X.countP (· == silenceLine) = 0 →
        ((X ++ [silenceLine]).mergeSort strLe).count silenceLine = 1 := by
      intro X hX
      show List.countP (· == silenceLine)
        ((X ++ [silenceLine]).mergeSort strLe) = 1
      rw [(List.mergeSort_perm _ strLe).countP_eq, List.countP_append, hX]
      simp
    rw [pronunciation_lines, pySorted]
    apply key
    rw [List.countP_eq_zero]
    intro line hmem
    simp only [beq_iff_eq]
    intro heq
    obtain ⟨wp, hwp, hline⟩ := List.mem_map.mp hmem
    obtain ⟨w, p⟩ := wp
    rw [← hline] at heq
    obtain ⟨hw, -⟩ := List.of_mem_zip hwp
    have hne : w ≠ [] := pySplit_aux_ne_nil _ _ _ hw
    obtain ⟨ch, tw, rfl⟩ := List.exists_cons_of_ne_nil hne
    have hch : ch = 's' := by
      have hcons : ch :: (tw ++ "  ".data ++ joinSpaces p ++ "\n".data) =
          silenceLine := by
        simpa [dictLine] using heq
      have := List.cons.injEq ch
        (tw ++ "  ".data ++ joinSpaces p ++ "\n".data) 's' "p  sp\n".data ▸
        hcons
      exact this.1
    have hmemch : ch ∈ text.map Char.toUpper := by
      rcases pySplit_aux_chars _ _ _ hw ch (List.mem_cons_self ch tw)
        with h2 | h2
      · exact absurd h2 (List.not_mem_nil ch)
      · exact h2
    obtain ⟨c0, -, hc0⟩ := List.mem_map.mp hmemch
    exact toUpper_ne_s c0 (hc0.trans hch)

/-- C8 counterexample: with the G2P collaborator returning no phonemes for
the middle word of `"a b c"` (flat output `["P1", " ", " ", "P3"]`, with
consecutive space markers around the empty middle word), the emitted
dictionary has no entry with an empty pronunciation: the empty segment is
skipped, word `B` is paired with the following phonemes (the absorbed space
marker plus `C`'s phoneme), and word `C` gets no entry at all — in
particular neither the empty entry `'B  \n'` for `B` nor the correct entry
`'C  P3\n'` for `C` is present. -/
theorem write_pronunciation_no_empty_entry :
    pronunciation_lines ["P1", " ", " ", "P3"] "a b c".data =
        ["A  P1\n".data, "B    P3\n".data, "sp  sp\n".data] ∧
      "B  \n".data ∉ pronunciation_lines ["P1", " ", " ", "P3"] "a b c".data ∧
      "C  P3\n".data ∉
        pronunciation_lines ["P1", " ", " ", "P3"] "a b c".data := by
  have h : ((pySplit ("a b c".data.map Char.toUpper)).zip
        (split_phonemes ["P1", " ", " ", "P3"])).map
          (fun wp => dictLine wp.1 wp.2) ++ [silenceLine] =
      ["A  P1\n".data, "B    P3\n".data, "sp  sp\n".data] := by decide
  have hmain : pronunciation_lines ["P1", " ", " ", "P3"] "a b c".data =
      ["A  P1\n".data, "B    P3\n".data, "sp  sp\n".data] := by
    rw [pronunciation_lines, pySorted, h]
    exact List.mergeSort_of_sorted (by decide)
  refine ⟨hmain, ?_, ?_⟩ <;> rw [hmain] <;> decide

/-- C8 amended: when the G2P output contains consecutive space markers — a
word with no phonemes between two word boundaries — `split_phonemes` does
not produce an empty pronunciation for it: the first marker closes the
preceding word and the second marker, arriving on an empty accumulator, is
absorbed into the next word's phoneme list, so one pronunciation fewer than
words is produced (and `zip` then drops the final word). -/
theorem split_phonemes_skips_empty (p1 p2 : String)
    (h1 : p1 ≠ " ") (h2 : p2 ≠ " ") :
    split_phonemes [p1, " ", " ", p2] = [[p1], [" ", p2]] := by
  simp [split_phonemes, split_phonemes_aux, h1, h2]

/-- Witness for C8 amended at the counterexample's phoneme list. -/
theorem split_phonemes_skips_empty_witness :
    split_phonemes ["P1", " ", " ", "P3"] = [["P1"], [" ", "P3"]] :=
  split_phonemes_skips_empty "P1" "P3" (by decide) (by decide)

end P2FA
